import Mathlib

/-!
# Verification of `uncertainty_sampling_numpy.py`

A shallow embedding of the four uncertainty-sampling score functions
(`softmax`, `margin_confidence`, `ratio_confidence`, `least_confidence`,
`entropy_score`) from `uncertainty_sampling_numpy.py`.

Two layers of modelling are used:

* A real-valued model (`List ℝ`): numpy float arrays become lists of real
  numbers and arithmetic is exact real arithmetic.  Python exceptions
  (IndexError on `prob_dist[1]`, ZeroDivisionError in the normalisation)
  become `Option`; `none` models the raised exception.
* An extended-value model (`FV`): IEEE-754 style values `fin r`, `pinf`,
  `ninf`, `nan`, used for the behaviours where NaN / infinity semantics of
  the floating-point code are observable (the `0 * log2 0` term of
  `entropy_score`, and the NaN-ignoring `np.nanmax` of `least_confidence`).

The in-place sort `prob_dist[::-1].sort()` performed by `margin_confidence`
and `ratio_confidence` is modelled by state-passing variants that return,
next to the score, the contents of the caller's array after the call.
-/

namespace UncertaintySampling

noncomputable section

/-- Decidability of the descending comparison used by the sort. -/
instance : DecidableRel (fun a b : ℝ => a ≥ b) := fun a b => Real.decidableLE b a

instance : IsTotal ℝ (fun a b : ℝ => a ≥ b) := ⟨fun a b => le_total b a⟩

instance : IsTrans ℝ (fun a b : ℝ => a ≥ b) := ⟨fun _ _ _ h1 h2 => le_trans h2 h1⟩

instance : IsAntisymm ℝ (fun a b : ℝ => a ≥ b) := ⟨fun _ _ h1 h2 => le_antisymm h2 h1⟩

/-- `softmax(prediction, base)`:
`exps = base**prediction; sum_exps = np.sum(exps); return exps / sum_exps`.
In the source `base` defaults to `np.exp(1)`. -/
def softmax (prediction : List ℝ) (base : ℝ) : List ℝ :=
  let exps := prediction.map (fun x => base ^ x)
  let sum_exps := exps.sum
  exps.map (fun e => e / sum_exps)

/-- Result of `prob_dist[::-1].sort()`: the array contents rearranged into
descending order (the reversed view is sorted ascending in place, which
leaves the underlying array sorted largest-first). -/
def sortDesc (l : List ℝ) : List ℝ := l.insertionSort (fun a b : ℝ => a ≥ b)

/-- `margin_confidence(prob_dist, sorted)`: when `sorted` is false the array
is first put in descending order; then `1 - (prob_dist[0] - prob_dist[1])`.
`none` models the IndexError raised by `prob_dist[0]` / `prob_dist[1]` when
the array has fewer than two elements. -/
def margin_confidence (prob_dist : List ℝ) (sorted : Bool) : Option ℝ :=
  let p := if sorted then prob_dist else sortDesc prob_dist
  match p with
  | p0 :: p1 :: _ => some (1 - (p0 - p1))
  | _ => none

/-- `ratio_confidence(prob_dist, sorted)`: when `sorted` is false the array
is first put in descending order; then `prob_dist[1] / prob_dist[0]`.
`none` models the IndexError on arrays of fewer than two elements. -/
def ratio_confidence (prob_dist : List ℝ) (sorted : Bool) : Option ℝ :=
  let p := if sorted then prob_dist else sortDesc prob_dist
  match p with
  | p0 :: p1 :: _ => some (p1 / p0)
  | _ => none

/-- Maximum of a NaN-free array: real-valued model of `np.nanmax`.
(`np.nanmax` of an empty array raises; the `[]` case is never reached below,
every use is guarded by a length bound.) -/
def maxList : List ℝ → ℝ
  | [] => 0
  | x :: xs => xs.foldl max x

/-- `least_confidence(prob_dist, sorted)`:
`simple_least_conf` is `prob_dist[0]` when `sorted` else `np.nanmax(prob_dist)`;
result `(1 - simple_least_conf) * (num_labels / (num_labels - 1))`.
`none` models the failure on arrays of fewer than two elements
(IndexError / ValueError on the empty array, Python float ZeroDivisionError
in `num_labels / (num_labels - 1)` when `num_labels = 1`). -/
def least_confidence (prob_dist : List ℝ) (sorted : Bool) : Option ℝ :=
  if prob_dist.length < 2 then none
  else
    let simple_least_conf := if sorted then prob_dist.headD 0 else maxList prob_dist
    let num_labels : ℝ := prob_dist.length
    some ((1 - simple_least_conf) * (num_labels / (num_labels - 1)))

/-- `entropy_score(prob_dist)`:
`log_probs = prob_dist * np.log2(prob_dist); raw = 0 - np.sum(log_probs);
return raw / np.log2(prob_dist.size)` — in exact real arithmetic, with
Mathlib's convention `Real.logb 2 0 = 0` (so a zero entry contributes `0`
here; the floating-point code instead produces `0 * (-inf) = NaN`, which the
extended-value model `entropy_scoreF` below captures). -/
def entropy_score (prob_dist : List ℝ) : ℝ :=
  let log_probs := prob_dist.map (fun p => p * Real.logb 2 p)
  let raw_entropy := 0 - log_probs.sum
  raw_entropy / Real.logb 2 (prob_dist.length : ℝ)

/-! ## State-passing variants

Each variant returns `(result, contents of the caller's array after the
call)`.  In the source, `softmax`, `least_confidence` and `entropy_score`
only read their input (`base**prediction`, `np.sum`, `np.nanmax`,
`np.log2`, `*`, `/` all allocate fresh arrays), so the final state is the
input unchanged; `margin_confidence` and `ratio_confidence` execute
`prob_dist[::-1].sort()` when `sorted` is false, which reorders the
caller's array in place into descending order. -/

/-- State-passing `softmax`: no operation writes into `prediction`. -/
def softmaxSt (prediction : List ℝ) (base : ℝ) : List ℝ × List ℝ :=
  (softmax prediction base, prediction)

/-- State-passing `margin_confidence`: `prob_dist[::-1].sort()` mutates the
caller's array when `sorted` is false. -/
def margin_confidenceSt (prob_dist : List ℝ) (sorted : Bool) : Option ℝ × List ℝ :=
  let p := if sorted then prob_dist else sortDesc prob_dist
  (match p with
   | p0 :: p1 :: _ => some (1 - (p0 - p1))
   | _ => none, p)

/-- State-passing `ratio_confidence`: `prob_dist[::-1].sort()` mutates the
caller's array when `sorted` is false. -/
def ratio_confidenceSt (prob_dist : List ℝ) (sorted : Bool) : Option ℝ × List ℝ :=
  let p := if sorted then prob_dist else sortDesc prob_dist
  (match p with
   | p0 :: p1 :: _ => some (p1 / p0)
   | _ => none, p)

/-- State-passing `least_confidence`: no operation writes into `prob_dist`. -/
def least_confidenceSt (prob_dist : List ℝ) (sorted : Bool) : Option ℝ × List ℝ :=
  (least_confidence prob_dist sorted, prob_dist)

/-- State-passing `entropy_score`: no operation writes into `prob_dist`. -/
def entropy_scoreSt (prob_dist : List ℝ) : ℝ × List ℝ :=
  (entropy_score prob_dist, prob_dist)

/-! ## Extended-value (IEEE-754 style) model -/

/-- A floating-point value: finite, `+inf`, `-inf` or `NaN`. -/
inductive FV where
  | fin : ℝ → FV
  | pinf : FV
  | ninf : FV
  | nan : FV

namespace FV

/-- IEEE negation. -/
def neg : FV → FV
  | fin r => fin (-r)
  | pinf => ninf
  | ninf => pinf
  | nan => nan

/-- IEEE addition: NaN propagates, `+inf + -inf = NaN`. -/
def add : FV → FV → FV
  | nan, _ => nan
  | _, nan => nan
  | fin a, fin b => fin (a + b)
  | fin _, pinf => pinf
  | pinf, fin _ => pinf
  | fin _, ninf => ninf
  | ninf, fin _ => ninf
  | pinf, pinf => pinf
  | ninf, ninf => ninf
  | pinf, ninf => nan
  | ninf, pinf => nan

/-- IEEE subtraction. -/
def sub (a b : FV) : FV := add a (neg b)

/-- IEEE multiplication: NaN propagates, `0 * ±inf = NaN`. -/
def mul : FV → FV → FV
  | nan, _ => nan
  | _, nan => nan
  | fin a, fin b => fin (a * b)
  | fin a, pinf => if 0 < a then pinf else if a < 0 then ninf else nan
  | pinf, fin b => if 0 < b then pinf else if b < 0 then ninf else nan
  | fin a, ninf => if 0 < a then ninf else if a < 0 then pinf else nan
  | ninf, fin b => if 0 < b then ninf else if b < 0 then pinf else nan
  | pinf, pinf => pinf
  | ninf, ninf => pinf
  | pinf, ninf => ninf
  | ninf, pinf => ninf

/-- IEEE division (positive-zero convention for signs of zero): NaN
propagates, `0/0 = NaN`, nonzero finite over zero is a signed infinity,
finite over infinity is zero, infinity over infinity is NaN. -/
def div : FV → FV → FV
  | nan, _ => nan
  | _, nan => nan
  | fin a, fin b =>
      if b = 0 then (if a = 0 then nan else if 0 < a then pinf else ninf)
      else fin (a / b)
  | fin _, pinf => fin 0
  | fin _, ninf => fin 0
  | pinf, fin b => if 0 ≤ b then pinf else ninf
  | ninf, fin b => if 0 ≤ b then ninf else pinf
  | pinf, pinf => nan
  | pinf, ninf => nan
  | ninf, pinf => nan
  | ninf, ninf => nan

/-- `np.log2` on a finite float: `log2 0 = -inf`, `log2 x = NaN` for `x < 0`. -/
def log2 (x : ℝ) : FV :=
  if 0 < x then fin (Real.logb 2 x) else if x = 0 then ninf else nan

/-- `np.fmax`-style binary maximum: a NaN operand is ignored. -/
def fmax : FV → FV → FV
  | nan, b => b
  | a, nan => a
  | fin a, fin b => fin (max a b)
  | pinf, _ => pinf
  | _, pinf => pinf
  | ninf, b => b
  | a, ninf => a

/-- `np.sum` over an array of float values. -/
def sum (l : List FV) : FV := l.foldl add (fin 0)

end FV

/-- `np.nanmax`: maximum ignoring NaN entries.  (All-NaN or empty input gives
`nan` here; numpy warns or raises there — every use below has at least one
non-NaN entry.) -/
def nanmax : List FV → FV
  | [] => FV.nan
  | x :: xs => xs.foldl FV.fmax x

/-- `least_confidence` in the extended-value model, on an array that may
contain NaN entries: `prob_dist[0]` when `sorted` (the `FV.nan` default is
unreachable, all uses have at least two elements), else
`np.nanmax(prob_dist)`; then `(1 - slc) * (n / (n - 1))` in float
arithmetic. -/
def least_confidenceF (prob_dist : List FV) (sorted : Bool) : FV :=
  let simple_least_conf := if sorted then prob_dist.getD 0 FV.nan else nanmax prob_dist
  let num_labels : ℝ := prob_dist.length
  FV.mul (FV.sub (FV.fin 1) simple_least_conf)
    (FV.div (FV.fin num_labels) (FV.fin (num_labels - 1)))

/-- `entropy_score` in the extended-value model, faithful to the
floating-point elementwise operations: `prob_dist * np.log2(prob_dist)`
(so a zero entry yields `0 * (-inf) = NaN`), negated sum, divided by
`np.log2(size)`. -/
def entropy_scoreF (prob_dist : List ℝ) : FV :=
  let log_probs := prob_dist.map (fun p => FV.mul (FV.fin p) (FV.log2 p))
  let raw_entropy := FV.sub (FV.fin 0) (FV.sum log_probs)
  FV.div raw_entropy (FV.log2 (prob_dist.length : ℝ))

/-! ## Helper lemmas -/

lemma sum_map_div (l : List ℝ) (s : ℝ) : (l.map (fun e => e / s)).sum = l.sum / s := by
  induction l with
  | nil => simp
  | cons x xs ih => simp [ih, add_div]

lemma sum_pos_of_forall_pos (l : List ℝ) (h : ∀ x ∈ l, 0 < x) (hne : l ≠ []) :
    0 < l.sum := by
  induction l with
  | nil => exact absurd rfl hne
  | cons x xs ih =>
    have hx : 0 < x := h x (List.mem_cons_self x xs)
    rcases eq_or_ne xs [] with h0 | h0
    · simp [h0, hx]
    · have := ih (fun y hy => h y (List.mem_cons_of_mem x hy)) h0
      simpa using add_pos hx this

lemma foldl_max_facts (xs : List ℝ) (a : ℝ) :
    a ≤ xs.foldl max a ∧ (∀ x ∈ xs, x ≤ xs.foldl max a) ∧
      (xs.foldl max a = a ∨ xs.foldl max a ∈ xs) := by
  induction xs generalizing a with
  | nil => exact ⟨le_refl a, by simp, Or.inl rfl⟩
  | cons y ys ih =>
    obtain ⟨h1, h2, h3⟩ := ih (max a y)
    refine ⟨le_trans (le_max_left a y) h1, ?_, ?_⟩
    · intro x hx
      rcases List.mem_cons.mp hx with rfl | hx
      · exact le_trans (le_max_right a x) h1
      · exact h2 x hx
    · rcases h3 with h3 | h3
      · rcases max_choice a y with hc | hc
        · exact Or.inl (by rw [List.foldl_cons, h3, hc])
        · refine Or.inr ?_
          rw [List.foldl_cons, h3, hc]
          exact List.mem_cons_self y ys
      · exact Or.inr (List.mem_cons_of_mem y h3)

lemma le_maxList (l : List ℝ) (x : ℝ) (hx : x ∈ l) : x ≤ maxList l := by
  cases l with
  | nil => simp at hx
  | cons a xs =>
    obtain ⟨h1, h2, _⟩ := foldl_max_facts xs a
    rcases List.mem_cons.mp hx with rfl | hx
    · exact h1
    · exact h2 x hx

lemma maxList_mem (l : List ℝ) (hne : l ≠ []) : maxList l ∈ l := by
  cases l with
  | nil => exact absurd rfl hne
  | cons a xs =>
    obtain ⟨_, _, h3⟩ := foldl_max_facts xs a
    rcases h3 with h3 | h3
    · simp [maxList, h3]
    · exact List.mem_cons_of_mem a (by simpa [maxList] using h3)

lemma sortDesc_perm (l : List ℝ) : (sortDesc l).Perm l :=
  List.perm_insertionSort _ l

lemma sortDesc_sorted (l : List ℝ) : List.Sorted (fun a b : ℝ => a ≥ b) (sortDesc l) :=
  List.sorted_insertionSort _ l

lemma sortDesc_length (l : List ℝ) : (sortDesc l).length = l.length :=
  (sortDesc_perm l).length_eq

/-- The first two entries of the descending sort are the largest entry and
the largest entry of the list with one occurrence of the maximum removed. -/
lemma sortDesc_top_two (l : List ℝ) (h2 : 2 ≤ l.length) :
    ∃ p0 p1 rest, sortDesc l = p0 :: p1 :: rest ∧ p0 ∈ l ∧ (∀ x ∈ l, x ≤ p0) ∧
      p1 ∈ l.erase p0 ∧ (∀ x ∈ l.erase p0, x ≤ p1) ∧ p1 ≤ p0 := by
  have hlen : 2 ≤ (sortDesc l).length := by rw [sortDesc_length]; exact h2
  obtain ⟨p0, p1, rest, hs⟩ : ∃ p0 p1 rest, sortDesc l = p0 :: p1 :: rest := by
    cases e : sortDesc l with
    | nil => rw [e] at hlen; simp at hlen
    | cons p0 t =>
      cases t with
      | nil => rw [e] at hlen; simp at hlen
      | cons p1 rest => exact ⟨p0, p1, rest, rfl⟩
  have hperm : (p0 :: p1 :: rest).Perm l := hs ▸ sortDesc_perm l
  have hsort : List.Sorted (fun a b : ℝ => a ≥ b) (p0 :: p1 :: rest) :=
    hs ▸ sortDesc_sorted l
  have hp0mem : p0 ∈ l := hperm.mem_iff.mp (List.mem_cons_self _ _)
  have hub : ∀ x ∈ l, x ≤ p0 := by
    intro x hx
    rcases List.mem_cons.mp (hperm.mem_iff.mpr hx) with rfl | hx2
    · exact le_refl x
    · exact List.rel_of_sorted_cons hsort x hx2
  have herase : (p1 :: rest).Perm (l.erase p0) := by
    have he : (p0 :: p1 :: rest).erase p0 = p1 :: rest := List.erase_cons_head p0 _
    have := hperm.erase p0
    rwa [he] at this
  have hp1mem : p1 ∈ l.erase p0 := herase.mem_iff.mp (List.mem_cons_self _ _)
  have hub1 : ∀ x ∈ l.erase p0, x ≤ p1 := by
    intro x hx
    rcases List.mem_cons.mp (herase.mem_iff.mpr hx) with rfl | hx2
    · exact le_refl x
    · exact List.rel_of_sorted_cons hsort.of_cons x hx2
  exact ⟨p0, p1, rest, hs, hp0mem, hub, hp1mem, hub1,
    List.rel_of_sorted_cons hsort p1 (List.mem_cons_self _ _)⟩

lemma fmax_fin_fin (a b : ℝ) : FV.fmax (FV.fin a) (FV.fin b) = FV.fin (max a b) := rfl

lemma fmax_fin_nan (a : ℝ) : FV.fmax (FV.fin a) FV.nan = FV.fin a := rfl

lemma fmax_nan (b : FV) : FV.fmax FV.nan b = b := by cases b <;> rfl

/-- Folding `np.fmax` over fin-or-NaN values: the result is NaN exactly when
everything was NaN, and otherwise it is the largest finite value seen. -/
lemma foldl_fmax_finOrNan (xs : List FV) (a : FV)
    (ha : (∃ r, a = FV.fin r) ∨ a = FV.nan)
    (hxs : ∀ v ∈ xs, (∃ r, v = FV.fin r) ∨ v = FV.nan) :
    (xs.foldl FV.fmax a = FV.nan ∧ a = FV.nan ∧ ∀ v ∈ xs, v = FV.nan) ∨
    (∃ m, xs.foldl FV.fmax a = FV.fin m ∧ (FV.fin m = a ∨ FV.fin m ∈ xs) ∧
      (∀ r, a = FV.fin r → r ≤ m) ∧ (∀ r, FV.fin r ∈ xs → r ≤ m)) := by
  induction xs generalizing a with
  | nil =>
    rcases ha with ⟨r, rfl⟩ | rfl
    · refine Or.inr ⟨r, rfl, Or.inl rfl, ?_, by simp⟩
      intro s hs
      cases hs
      exact le_refl r
    · exact Or.inl ⟨rfl, rfl, by simp⟩
  | cons y ys ih =>
    have hy := hxs y (List.mem_cons_self y ys)
    have hys : ∀ v ∈ ys, (∃ r, v = FV.fin r) ∨ v = FV.nan :=
      fun v hv => hxs v (List.mem_cons_of_mem y hv)
    rcases ha with ⟨r0, rfl⟩ | rfl <;> rcases hy with ⟨s, rfl⟩ | rfl
    · -- a = fin r0, y = fin s
      rcases ih (FV.fin (max r0 s)) (Or.inl ⟨_, rfl⟩) hys with ⟨_, h2, _⟩ | hR
      · cases h2
      obtain ⟨m, hm, hmem, hub_a, hub_xs⟩ := hR
      refine Or.inr ⟨m, ?_, ?_, ?_, ?_⟩
      · rw [List.foldl_cons, fmax_fin_fin, hm]
      · rcases hmem with he | hin
        · cases he
          rcases max_choice r0 s with hc | hc
          · exact Or.inl (by rw [hc])
          · exact Or.inr (by rw [hc]; exact List.mem_cons_self _ _)
        · exact Or.inr (List.mem_cons_of_mem _ hin)
      · intro r hr
        cases hr
        exact le_trans (le_max_left r0 s) (hub_a _ rfl)
      · intro r hr
        rcases List.mem_cons.mp hr with he | hin
        · cases he
          exact le_trans (le_max_right r0 s) (hub_a _ rfl)
        · exact hub_xs r hin
    · -- a = fin r0, y = nan
      rcases ih (FV.fin r0) (Or.inl ⟨_, rfl⟩) hys with ⟨_, h2, _⟩ | hR
      · cases h2
      obtain ⟨m, hm, hmem, hub_a, hub_xs⟩ := hR
      refine Or.inr ⟨m, ?_, ?_, hub_a, ?_⟩
      · rw [List.foldl_cons, fmax_fin_nan, hm]
      · rcases hmem with he | hin
        · exact Or.inl he
        · exact Or.inr (List.mem_cons_of_mem _ hin)
      · intro r hr
        rcases List.mem_cons.mp hr with he | hin
        · cases he
        · exact hub_xs r hin
    · -- a = nan, y = fin s
      rcases ih (FV.fin s) (Or.inl ⟨_, rfl⟩) hys with ⟨_, h2, _⟩ | hR
      · cases h2
      obtain ⟨m, hm, hmem, hub_a, hub_xs⟩ := hR
      refine Or.inr ⟨m, ?_, ?_, ?_, ?_⟩
      · rw [List.foldl_cons, fmax_nan, hm]
      · rcases hmem with he | hin
        · exact Or.inr (he ▸ List.mem_cons_self _ _)
        · exact Or.inr (List.mem_cons_of_mem _ hin)
      · intro r hr
        cases hr
      · intro r hr
        rcases List.mem_cons.mp hr with he | hin
        · cases he
          exact hub_a _ rfl
        · exact hub_xs r hin
    · -- a = nan, y = nan
      rcases ih FV.nan (Or.inr rfl) hys with ⟨h1, _, h3⟩ | hR
      · refine Or.inl ⟨?_, rfl, ?_⟩
        · rw [List.foldl_cons, fmax_nan, h1]
        · intro v hv
          rcases List.mem_cons.mp hv with he | hin
          · exact he
          · exact h3 v hin
      · obtain ⟨m, hm, hmem, _, hub_xs⟩ := hR
        refine Or.inr ⟨m, ?_, ?_, ?_, ?_⟩
        · rw [List.foldl_cons, fmax_nan, hm]
        · rcases hmem with he | hin
          · cases he
          · exact Or.inr (List.mem_cons_of_mem _ hin)
        · intro r hr
          cases hr
        · intro r hr
          rcases List.mem_cons.mp hr with he | hin
          · cases he
          · exact hub_xs r hin

/-- `np.nanmax` of a fin-or-NaN array containing at least one finite value is
its largest finite value. -/
lemma nanmax_fin (l : List FV)
    (hl : ∀ v ∈ l, (∃ r, v = FV.fin r) ∨ v = FV.nan)
    (hex : ∃ r, FV.fin r ∈ l) :
    ∃ m, nanmax l = FV.fin m ∧ FV.fin m ∈ l ∧ ∀ r, FV.fin r ∈ l → r ≤ m := by
  obtain ⟨r, hr⟩ := hex
  cases l with
  | nil => simp at hr
  | cons x xs =>
    have hx := hl x (List.mem_cons_self x xs)
    have hxs : ∀ v ∈ xs, (∃ s, v = FV.fin s) ∨ v = FV.nan :=
      fun v hv => hl v (List.mem_cons_of_mem x hv)
    rcases foldl_fmax_finOrNan xs x hx hxs with ⟨h1, h2, h3⟩ | hR
    · exfalso
      rcases List.mem_cons.mp hr with he | hin
      · rw [h2] at he; cases he
      · have := h3 _ hin; cases this
    · obtain ⟨m, hm, hmem, hub_a, hub_xs⟩ := hR
      refine ⟨m, hm, ?_, ?_⟩
      · rcases hmem with he | hin
        · exact he ▸ List.mem_cons_self _ _
        · exact List.mem_cons_of_mem x hin
      · intro s hs
        rcases List.mem_cons.mp hs with he | hin
        · exact hub_a s he.symm
        · exact hub_xs s hin

lemma sub_fin_fin (a b : ℝ) : FV.sub (FV.fin a) (FV.fin b) = FV.fin (a - b) := by
  rw [sub_eq_add_neg]; rfl

lemma mul_fin_fin (a b : ℝ) : FV.mul (FV.fin a) (FV.fin b) = FV.fin (a * b) := rfl

lemma div_fin_fin (a b : ℝ) (hb : b ≠ 0) :
    FV.div (FV.fin a) (FV.fin b) = FV.fin (a / b) := by
  simp [FV.div, hb]

/-! ## Claim theorems -/

/-- C10: `softmax`, `least_confidence` (for either value of the `sorted`
flag) and `entropy_score` never mutate their input: after any call the
caller's array holds the same values in the same order as before. -/
theorem softmax_least_entropy_no_mutation (l : List ℝ) (b : ℝ) (s : Bool) :
    (softmaxSt l b).2 = l ∧ (least_confidenceSt l s).2 = l ∧ (entropy_scoreSt l).2 = l :=
  ⟨rfl, rfl, rfl⟩

/-- C2 counterexample: after `margin_confidence([0.1, 0.6, 0.1, 0.2],
sorted=false)` (respectively `ratio_confidence([0.3, 0.7], sorted=false)`)
the caller's array no longer holds its original contents: the in-place
`prob_dist[::-1].sort()` reordered it. -/
theorem margin_ratio_mutation_counterexample :
    (margin_confidenceSt [0.1, 0.6, 0.1, 0.2] false).2 ≠ ([0.1, 0.6, 0.1, 0.2] : List ℝ) ∧
    (ratio_confidenceSt [0.3, 0.7] false).2 ≠ ([0.3, 0.7] : List ℝ) := by
  have h1 : (margin_confidenceSt [0.1, 0.6, 0.1, 0.2] false).2 =
      sortDesc ([0.1, 0.6, 0.1, 0.2] : List ℝ) := rfl
  have h2 : (ratio_confidenceSt [0.3, 0.7] false).2 = sortDesc ([0.3, 0.7] : List ℝ) := rfl
  have e1 : sortDesc ([0.1, 0.6, 0.1, 0.2] : List ℝ) = [0.6, 0.2, 0.1, 0.1] := by
    norm_num [sortDesc, List.insertionSort, List.orderedInsert]
  have e2 : sortDesc ([0.3, 0.7] : List ℝ) = [0.7, 0.3] := by
    norm_num [sortDesc, List.insertionSort, List.orderedInsert]
  constructor
  · rw [h1, e1]
    intro h
    have := List.head_eq_of_cons_eq h
    norm_num at this
  · rw [h2, e2]
    intro h
    have := List.head_eq_of_cons_eq h
    norm_num at this

/-- C2 (amended): with `sorted=false`, `margin_confidence` and
`ratio_confidence` sort the caller's distribution in place: after the call
the caller's array holds the descending sort of its former contents (an
observable mutation whenever the array was not already in descending
order), while the returned score is the one computed from the sorted
contents; with `sorted=true` the array is left untouched. -/
theorem margin_ratio_inplace_sort (l : List ℝ) :
    (margin_confidenceSt l false).2 = sortDesc l ∧
    (ratio_confidenceSt l false).2 = sortDesc l ∧
    (margin_confidenceSt l true).2 = l ∧
    (ratio_confidenceSt l true).2 = l ∧
    (margin_confidenceSt l false).1 = margin_confidence l false ∧
    (ratio_confidenceSt l false).1 = ratio_confidence l false :=
  ⟨rfl, rfl, rfl, rfl, rfl, rfl⟩

/-- C8: on input of fewer than two elements, `margin_confidence` and
`ratio_confidence` fail (the model's `none`, standing for the IndexError
raised when the code reads index 1 of the array); no validation happens
first. -/
theorem margin_ratio_short_input (l : List ℝ) (s : Bool) (h : l.length < 2) :
    margin_confidence l s = none ∧ ratio_confidence l s = none := by
  have hp : (if s then l else sortDesc l).length < 2 := by
    cases s <;> simpa [sortDesc_length] using h
  rcases e : (if s then l else sortDesc l) with _ | ⟨a, t⟩
  · constructor <;> simp [margin_confidence, ratio_confidence, e]
  · rcases t with _ | ⟨b, t2⟩
    · constructor <;> simp [margin_confidence, ratio_confidence, e]
    · rw [e] at hp
      simp only [List.length_cons] at hp
      omega

/-- C8 witness: the one-element distribution `[0.5]`. -/
theorem margin_ratio_short_input_witness :
    ([(0.5 : ℝ)] : List ℝ).length < 2 ∧
      (margin_confidence [(0.5 : ℝ)] false = none ∧ ratio_confidence [(0.5 : ℝ)] false = none) :=
  ⟨by norm_num, margin_ratio_short_input [(0.5 : ℝ)] false (by norm_num)⟩

/-- C3: on a valid distribution of length `n ≥ 2`, `least_confidence` with
`sorted=false` returns `(1 - m) * (n / (n - 1))` where `m` is the largest
entry; the result lies in `[0, 1]` and equals exactly `1` on the uniform
distribution. -/
theorem least_confidence_spec (l : List ℝ) (h2 : 2 ≤ l.length)
    (hmem : ∀ x ∈ l, 0 ≤ x ∧ x ≤ 1) (hsum : l.sum = 1) :
    ∃ m, m ∈ l ∧ (∀ x ∈ l, x ≤ m) ∧
      least_confidence l false = some ((1 - m) * ((l.length : ℝ) / ((l.length : ℝ) - 1))) ∧
      0 ≤ (1 - m) * ((l.length : ℝ) / ((l.length : ℝ) - 1)) ∧
      (1 - m) * ((l.length : ℝ) / ((l.length : ℝ) - 1)) ≤ 1 ∧
      ((∀ x ∈ l, x = 1 / (l.length : ℝ)) →
        (1 - m) * ((l.length : ℝ) / ((l.length : ℝ) - 1)) = 1) := by
  have hne : l ≠ [] := by
    intro h0
    rw [h0] at h2
    simp at h2
  have hn2 : (2 : ℝ) ≤ (l.length : ℝ) := by exact_mod_cast h2
  have hn1 : (0 : ℝ) < (l.length : ℝ) - 1 := by linarith
  have hn0 : (0 : ℝ) < (l.length : ℝ) := by linarith
  have hmmem := maxList_mem l hne
  have hub := fun x hx => le_maxList l x hx
  have hge : 1 ≤ (l.length : ℝ) * maxList l := by
    have hcard := List.sum_le_card_nsmul l (maxList l) hub
    rw [hsum, nsmul_eq_mul] at hcard
    exact hcard
  refine ⟨maxList l, hmmem, hub, ?_, ?_, ?_, ?_⟩
  · have hnot : ¬ l.length < 2 := not_lt.mpr h2
    simp [least_confidence, hnot]
  · have hm1 : maxList l ≤ 1 := (hmem _ hmmem).2
    exact mul_nonneg (by linarith) (le_of_lt (div_pos hn0 hn1))
  · rw [← mul_div_assoc, div_le_one hn1]
    nlinarith [hge]
  · intro hu
    have hmval : maxList l = 1 / (l.length : ℝ) := hu _ hmmem
    rw [hmval]
    field_simp

/-- C3 witness: the uniform distribution `[1/2, 1/2]`. -/
theorem least_confidence_spec_witness :
    ∃ m, m ∈ ([1 / 2, 1 / 2] : List ℝ) ∧ (∀ x ∈ ([1 / 2, 1 / 2] : List ℝ), x ≤ m) ∧
      least_confidence [1 / 2, 1 / 2] false =
        some ((1 - m) * ((([1 / 2, 1 / 2] : List ℝ).length : ℝ) /
          ((([1 / 2, 1 / 2] : List ℝ).length : ℝ) - 1))) ∧
      0 ≤ (1 - m) * ((([1 / 2, 1 / 2] : List ℝ).length : ℝ) /
          ((([1 / 2, 1 / 2] : List ℝ).length : ℝ) - 1)) ∧
      (1 - m) * ((([1 / 2, 1 / 2] : List ℝ).length : ℝ) /
          ((([1 / 2, 1 / 2] : List ℝ).length : ℝ) - 1)) ≤ 1 ∧
      ((∀ x ∈ ([1 / 2, 1 / 2] : List ℝ), x = 1 / (([1 / 2, 1 / 2] : List ℝ).length : ℝ)) →
        (1 - m) * ((([1 / 2, 1 / 2] : List ℝ).length : ℝ) /
          ((([1 / 2, 1 / 2] : List ℝ).length : ℝ) - 1)) = 1) :=
  least_confidence_spec [1 / 2, 1 / 2] (by norm_num)
    (by
      intro x hx
      simp at hx
      subst hx
      norm_num)
    (by norm_num)

/-- C4 counterexample: the one-hot distribution `[1, 0, 0, 0]` is valid
(entries in `[0, 1]`, sum `1`, length `≥ 2`) yet
`margin_confidence([1, 0, 0, 0], sorted=false) = 0`, outside the claimed
range `(0, 1]`. -/
theorem margin_confidence_range_counterexample :
    (∀ x ∈ ([1, 0, 0, 0] : List ℝ), 0 ≤ x ∧ x ≤ 1) ∧ ([1, 0, 0, 0] : List ℝ).sum = 1 ∧
      2 ≤ ([1, 0, 0, 0] : List ℝ).length ∧
      margin_confidence [1, 0, 0, 0] false = some 0 ∧
      ¬ ∃ r, margin_confidence [1, 0, 0, 0] false = some r ∧ 0 < r := by
  have he : margin_confidence [1, 0, 0, 0] false = some 0 := by
    norm_num [margin_confidence, sortDesc, List.insertionSort, List.orderedInsert]
  refine ⟨?_, by norm_num, by norm_num, he, ?_⟩
  · intro x hx
    simp at hx
    rcases hx with rfl | rfl <;> norm_num
  · rintro ⟨r, hr, hpos⟩
    rw [he] at hr
    have : (0 : ℝ) = r := Option.some.inj hr
    rw [← this] at hpos
    exact lt_irrefl 0 hpos

/-- C4 (amended): on a valid distribution of length `≥ 2`,
`margin_confidence` with `sorted=false` returns `1` minus the difference
between the largest and second-largest entries; the result lies in the
closed interval `[0, 1]` (the lower end is attained, e.g. at a one-hot
distribution) and equals `1` exactly when the top two entries are equal;
`margin_confidence([0.1, 0.6, 0.1, 0.2]) = 0.6`. -/
theorem margin_confidence_spec (l : List ℝ) (h2 : 2 ≤ l.length)
    (hmem : ∀ x ∈ l, 0 ≤ x ∧ x ≤ 1) (hsum : l.sum = 1) :
    (∃ p0 p1 rest, sortDesc l = p0 :: p1 :: rest ∧ p0 ∈ l ∧ (∀ x ∈ l, x ≤ p0) ∧
       p1 ∈ l.erase p0 ∧ (∀ x ∈ l.erase p0, x ≤ p1) ∧
       margin_confidence l false = some (1 - (p0 - p1)) ∧
       0 ≤ 1 - (p0 - p1) ∧ 1 - (p0 - p1) ≤ 1 ∧ (1 - (p0 - p1) = 1 ↔ p0 = p1)) ∧
    margin_confidence [0.1, 0.6, 0.1, 0.2] false = some 0.6 := by
  constructor
  · obtain ⟨p0, p1, rest, hs, hp0, hub, hp1, hub1, hle⟩ := sortDesc_top_two l h2
    have hp1l : p1 ∈ l := List.mem_of_mem_erase hp1
    have h00 : 0 ≤ p1 := (hmem _ hp1l).1
    have h01 : p0 ≤ 1 := (hmem _ hp0).2
    refine ⟨p0, p1, rest, hs, hp0, hub, hp1, hub1, ?_, by linarith, by linarith, ?_⟩
    · simp [margin_confidence, hs]
    · constructor
      · intro h
        linarith
      · intro h
        rw [h]
        ring
  · norm_num [margin_confidence, sortDesc, List.insertionSort, List.orderedInsert]

/-- C4 witness: the distribution `[0.25, 0.75]`. -/
theorem margin_confidence_spec_witness :
    ((∃ p0 p1 rest, sortDesc ([0.25, 0.75] : List ℝ) = p0 :: p1 :: rest ∧
       p0 ∈ ([0.25, 0.75] : List ℝ) ∧ (∀ x ∈ ([0.25, 0.75] : List ℝ), x ≤ p0) ∧
       p1 ∈ ([0.25, 0.75] : List ℝ).erase p0 ∧
       (∀ x ∈ ([0.25, 0.75] : List ℝ).erase p0, x ≤ p1) ∧
       margin_confidence [0.25, 0.75] false = some (1 - (p0 - p1)) ∧
       0 ≤ 1 - (p0 - p1) ∧ 1 - (p0 - p1) ≤ 1 ∧ (1 - (p0 - p1) = 1 ↔ p0 = p1)) ∧
     margin_confidence [0.1, 0.6, 0.1, 0.2] false = some 0.6) :=
  margin_confidence_spec [0.25, 0.75] (by norm_num)
    (by
      intro x hx
      simp at hx
      rcases hx with rfl | rfl <;> norm_num)
    (by norm_num)

/-- C5 counterexample: the distribution `[1, 0]` is valid and its largest
entry is nonzero, yet `ratio_confidence([1, 0], sorted=false) = 0`, outside
the claimed range `(0, 1]`. -/
theorem ratio_confidence_range_counterexample :
    (∀ x ∈ ([1, 0] : List ℝ), 0 ≤ x ∧ x ≤ 1) ∧ ([1, 0] : List ℝ).sum = 1 ∧
      2 ≤ ([1, 0] : List ℝ).length ∧ maxList [1, 0] ≠ 0 ∧
      ratio_confidence [1, 0] false = some 0 ∧
      ¬ ∃ r, ratio_confidence [1, 0] false = some r ∧ 0 < r := by
  have he : ratio_confidence [1, 0] false = some 0 := by
    norm_num [ratio_confidence, sortDesc, List.insertionSort, List.orderedInsert]
  refine ⟨?_, by norm_num, by norm_num, ?_, he, ?_⟩
  · intro x hx
    simp at hx
    rcases hx with rfl | rfl <;> norm_num
  · norm_num [maxList]
  · rintro ⟨r, hr, hpos⟩
    rw [he] at hr
    have : (0 : ℝ) = r := Option.some.inj hr
    rw [← this] at hpos
    exact lt_irrefl 0 hpos

/-- C5 (amended): on a valid distribution of length `≥ 2` whose largest
entry is nonzero, `ratio_confidence` with `sorted=false` returns the
second-largest entry divided by the largest; the result lies in the closed
interval `[0, 1]` (the lower end is attained, e.g. at a one-hot
distribution) and equals `1` exactly when the top two entries are equal;
`ratio_confidence([0.1, 0.6, 0.1, 0.2]) = 0.2 / 0.6`. -/
theorem ratio_confidence_spec (l : List ℝ) (h2 : 2 ≤ l.length)
    (hmem : ∀ x ∈ l, 0 ≤ x ∧ x ≤ 1) (hsum : l.sum = 1) (hmax : maxList l ≠ 0) :
    (∃ p0 p1 rest, sortDesc l = p0 :: p1 :: rest ∧ p0 = maxList l ∧ p0 ∈ l ∧
       (∀ x ∈ l, x ≤ p0) ∧ p1 ∈ l.erase p0 ∧ (∀ x ∈ l.erase p0, x ≤ p1) ∧
       ratio_confidence l false = some (p1 / p0) ∧
       0 ≤ p1 / p0 ∧ p1 / p0 ≤ 1 ∧ (p1 / p0 = 1 ↔ p0 = p1)) ∧
    ratio_confidence [0.1, 0.6, 0.1, 0.2] false = some (0.2 / 0.6) := by
  constructor
  · obtain ⟨p0, p1, rest, hs, hp0, hub, hp1, hub1, hle⟩ := sortDesc_top_two l h2
    have hne : l ≠ [] := by
      intro h0
      rw [h0] at h2
      simp at h2
    have hp0max : p0 = maxList l :=
      le_antisymm (le_maxList l p0 hp0) (hub _ (maxList_mem l hne))
    have hp1l : p1 ∈ l := List.mem_of_mem_erase hp1
    have h00 : 0 ≤ p1 := (hmem _ hp1l).1
    have hp0pos : 0 < p0 := by
      rcases lt_or_eq_of_le (hmem _ hp0).1 with h | h
      · exact h
      · exact absurd (hp0max ▸ h.symm) hmax
    refine ⟨p0, p1, rest, hs, hp0max, hp0, hub, hp1, hub1, ?_, ?_, ?_, ?_⟩
    · simp [ratio_confidence, hs]
    · exact div_nonneg h00 hp0pos.le
    · exact (div_le_one hp0pos).mpr hle
    · rw [div_eq_one_iff_eq hp0pos.ne']
      exact eq_comm
  · norm_num [ratio_confidence, sortDesc, List.insertionSort, List.orderedInsert]

/-- C5 witness: the distribution `[0.25, 0.75]`. -/
theorem ratio_confidence_spec_witness :
    ((∃ p0 p1 rest, sortDesc ([0.25, 0.75] : List ℝ) = p0 :: p1 :: rest ∧
       p0 = maxList [0.25, 0.75] ∧ p0 ∈ ([0.25, 0.75] : List ℝ) ∧
       (∀ x ∈ ([0.25, 0.75] : List ℝ), x ≤ p0) ∧
       p1 ∈ ([0.25, 0.75] : List ℝ).erase p0 ∧
       (∀ x ∈ ([0.25, 0.75] : List ℝ).erase p0, x ≤ p1) ∧
       ratio_confidence [0.25, 0.75] false = some (p1 / p0) ∧
       0 ≤ p1 / p0 ∧ p1 / p0 ≤ 1 ∧ (p1 / p0 = 1 ↔ p0 = p1)) ∧
     ratio_confidence [0.1, 0.6, 0.1, 0.2] false = some (0.2 / 0.6)) :=
  ratio_confidence_spec [0.25, 0.75] (by norm_num)
    (by
      intro x hx
      simp at hx
      rcases hx with rfl | rfl <;> norm_num)
    (by norm_num)
    (by norm_num [maxList])

/-- C6: `softmax` maps a logit vector to a same-length sequence (each entry
`base^element` divided by the sum of the exponentials); for a positive base
and nonempty input the output sums exactly to `1`, a constant vector
`[x, x, x]` maps to `[1/3, 1/3, 1/3]`, and `[1, 1]` maps to `[1/2, 1/2]`. -/
theorem softmax_spec (l : List ℝ) (b x : ℝ) (hb : 0 < b) (hl : l ≠ []) :
    (softmax l b).length = l.length ∧ (softmax l b).sum = 1 ∧
      softmax [x, x, x] b = [1 / 3, 1 / 3, 1 / 3] ∧ softmax [1, 1] b = [1 / 2, 1 / 2] := by
  have hpos : ∀ e ∈ l.map (fun y => b ^ y), 0 < e := by
    intro e he
    obtain ⟨y, _, rfl⟩ := List.mem_map.mp he
    exact Real.rpow_pos_of_pos hb y
  have hsum : 0 < (l.map (fun y => b ^ y)).sum :=
    sum_pos_of_forall_pos _ hpos (by simpa using hl)
  have ht : (0 : ℝ) < b ^ x := Real.rpow_pos_of_pos hb x
  refine ⟨?_, ?_, ?_, ?_⟩
  · simp [softmax]
  · simp only [softmax]
    rw [sum_map_div, div_self hsum.ne']
  · have h3 : b ^ x + (b ^ x + (b ^ x + 0)) = 3 * b ^ x := by ring
    have hq : b ^ x / (3 * b ^ x) = 1 / 3 := by
      rw [div_eq_div_iff (by positivity) (by norm_num)]
      ring
    simp only [softmax, List.map_cons, List.map_nil, List.sum_cons, List.sum_nil, h3, hq]
  · have hb1 : b ^ (1 : ℝ) = b := Real.rpow_one b
    have h2 : b + (b + 0) = 2 * b := by ring
    have hq : b / (2 * b) = 1 / 2 := by
      rw [div_eq_div_iff (by positivity) (by norm_num)]
      ring
    simp only [softmax, List.map_cons, List.map_nil, List.sum_cons, List.sum_nil, hb1, h2, hq]

/-- C6 witness: logits `[2]` with the default base `e` and `x = 5`. -/
theorem softmax_spec_witness :
    (0 < Real.exp 1) ∧ ([(2 : ℝ)] : List ℝ) ≠ [] ∧
      ((softmax [(2 : ℝ)] (Real.exp 1)).length = ([(2 : ℝ)] : List ℝ).length ∧
       (softmax [(2 : ℝ)] (Real.exp 1)).sum = 1 ∧
       softmax [5, 5, 5] (Real.exp 1) = [1 / 3, 1 / 3, 1 / 3] ∧
       softmax [1, 1] (Real.exp 1) = [1 / 2, 1 / 2]) :=
  ⟨Real.exp_pos 1, by simp,
    softmax_spec [(2 : ℝ)] (Real.exp 1) 5 (Real.exp_pos 1) (by simp)⟩

/-- C7: permuting a valid distribution changes none of the three scores:
`margin_confidence` and `ratio_confidence` (with `sorted=false`) and
`entropy_score` return identical results on the permuted distribution. -/
theorem perm_invariance (l l2 : List ℝ) (hp : l.Perm l2) (h2 : 2 ≤ l.length)
    (hmem : ∀ x ∈ l, 0 ≤ x ∧ x ≤ 1) (hsum : l.sum = 1) :
    margin_confidence l false = margin_confidence l2 false ∧
    ratio_confidence l false = ratio_confidence l2 false ∧
    entropy_score l = entropy_score l2 := by
  have hsort : sortDesc l = sortDesc l2 :=
    List.eq_of_perm_of_sorted ((sortDesc_perm l).trans (hp.trans (sortDesc_perm l2).symm))
      (sortDesc_sorted l) (sortDesc_sorted l2)
  refine ⟨?_, ?_, ?_⟩
  · simp [margin_confidence, hsort]
  · simp [ratio_confidence, hsort]
  · have hmap : ((l.map (fun p => p * Real.logb 2 p)).Perm
        (l2.map (fun p => p * Real.logb 2 p))) := hp.map _
    simp [entropy_score, hmap.sum_eq, hp.length_eq]

/-- C7 witness: `[0.3, 0.7]` and its transposition `[0.7, 0.3]`. -/
theorem perm_invariance_witness :
    ([0.3, 0.7] : List ℝ).Perm [0.7, 0.3] ∧
      (margin_confidence [0.3, 0.7] false = margin_confidence [0.7, 0.3] false ∧
       ratio_confidence [0.3, 0.7] false = ratio_confidence [0.7, 0.3] false ∧
       entropy_score [0.3, 0.7] = entropy_score [0.7, 0.3]) :=
  ⟨List.Perm.swap 0.7 0.3 [],
    perm_invariance [0.3, 0.7] [0.7, 0.3] (List.Perm.swap 0.7 0.3 []) (by norm_num)
      (by
        intro x hx
        simp at hx
        rcases hx with rfl | rfl <;> norm_num)
      (by norm_num)⟩

/-- C9: `least_confidence` with `sorted=true` uses index 0 of the input as
the top confidence; with `sorted=false` it uses the NaN-ignoring maximum
(`np.nanmax`), so an input of length `≥ 2` made of finite values and NaNs
with at least one finite entry yields a finite (non-NaN) numeric result,
namely `(1 - m) * (n / (n - 1))` for `m` the largest finite entry. -/
theorem least_confidence_nan_policy (l : List FV) (h2 : 2 ≤ l.length)
    (hfn : ∀ v ∈ l, (∃ r, v = FV.fin r) ∨ v = FV.nan)
    (hnan : FV.nan ∈ l) (hex : ∃ r, FV.fin r ∈ l) :
    (∃ m, nanmax l = FV.fin m ∧ FV.fin m ∈ l ∧ (∀ r, FV.fin r ∈ l → r ≤ m) ∧
      least_confidenceF l false =
        FV.fin ((1 - m) * ((l.length : ℝ) / ((l.length : ℝ) - 1)))) ∧
    (∀ r rest, l = FV.fin r :: rest →
      least_confidenceF l true =
        FV.fin ((1 - r) * ((l.length : ℝ) / ((l.length : ℝ) - 1)))) := by
  have hn2 : (2 : ℝ) ≤ (l.length : ℝ) := by exact_mod_cast h2
  have hn1 : ((l.length : ℝ) - 1) ≠ 0 := by linarith
  constructor
  · obtain ⟨m, hm, hmmem, hub⟩ := nanmax_fin l hfn hex
    refine ⟨m, hm, hmmem, hub, ?_⟩
    simp [least_confidenceF, hm, sub_fin_fin, div_fin_fin _ _ hn1, mul_fin_fin]
  · intro r rest hl
    subst hl
    have hb : ((rest.length : ℝ)) ≠ 0 := by
      have h1 : 1 ≤ rest.length := by
        simp only [List.length_cons] at h2
        omega
      have h1r : (1 : ℝ) ≤ (rest.length : ℝ) := by exact_mod_cast h1
      linarith
    have hdiv : ∀ a : ℝ, FV.div (FV.fin a) (FV.fin (rest.length : ℝ)) =
        FV.fin (a / (rest.length : ℝ)) := fun a => div_fin_fin a _ hb
    simp [least_confidenceF, sub_fin_fin, mul_fin_fin, hdiv]

/-- C9 witness: the array `[0.5, NaN]`. -/
theorem least_confidence_nan_policy_witness :
    (2 ≤ ([FV.fin (1 / 2), FV.nan] : List FV).length) ∧
      ((∃ m, nanmax [FV.fin (1 / 2), FV.nan] = FV.fin m ∧
          FV.fin m ∈ ([FV.fin (1 / 2), FV.nan] : List FV) ∧
          (∀ r, FV.fin r ∈ ([FV.fin (1 / 2), FV.nan] : List FV) → r ≤ m) ∧
          least_confidenceF [FV.fin (1 / 2), FV.nan] false =
            FV.fin ((1 - m) * ((([FV.fin (1 / 2), FV.nan] : List FV).length : ℝ) /
              ((([FV.fin (1 / 2), FV.nan] : List FV).length : ℝ) - 1)))) ∧
       (∀ r rest, ([FV.fin (1 / 2), FV.nan] : List FV) = FV.fin r :: rest →
          least_confidenceF [FV.fin (1 / 2), FV.nan] true =
            FV.fin ((1 - r) * ((([FV.fin (1 / 2), FV.nan] : List FV).length : ℝ) /
              ((([FV.fin (1 / 2), FV.nan] : List FV).length : ℝ) - 1))))) :=
  ⟨by norm_num,
    least_confidence_nan_policy [FV.fin (1 / 2), FV.nan] (by norm_num)
      (by
        intro v hv
        simp at hv
        rcases hv with rfl | rfl
        · exact Or.inl ⟨_, rfl⟩
        · exact Or.inr rfl)
      (by simp)
      ⟨1 / 2, by simp⟩⟩

/-- C1: the floating-point code has no special case for zero entries:
at the valid one-hot distribution `[1, 0, 0, 0]` the term
`0 * log2(0) = 0 * (-inf)` evaluates to NaN, the NaN propagates through the
sum and the final division, and `entropy_score` returns NaN — not the
`0.0` that the specified zero-contribution policy requires. -/
theorem entropy_score_zero_entry_nan :
    entropy_scoreF [1, 0, 0, 0] = FV.nan ∧ FV.nan ≠ FV.fin 0 := by
  constructor
  · norm_num [entropy_scoreF, FV.log2, FV.mul, FV.sum, FV.sub, FV.add, FV.neg, FV.div,
      List.foldl]
  · intro h
    cases h

end

end UncertaintySampling
